import Mathlib

/-!
Shallow embedding of the core of `src/despacho.py` (fpa-buscador-judicial):
the literal search engine `search_in_pdf` and the legal-field extractor
`analyze_legal_data`.  Strings are modelled as `List Char`; Python's
case-insensitive regex matching is modelled by an explicit case-folding
function covering ASCII letters and the Spanish accented letters that occur
in the pattern table.
-/

set_option maxHeartbeats 1000000

/-- Case folding used by `re.IGNORECASE`, restricted to the alphabet relevant
to the pattern table (ASCII letters and Spanish accented letters). -/
def foldChar (c : Char) : Char :=
  match c with
  | 'A' => 'a' | 'B' => 'b' | 'C' => 'c' | 'D' => 'd' | 'E' => 'e'
  | 'F' => 'f' | 'G' => 'g' | 'H' => 'h' | 'I' => 'i' | 'J' => 'j'
  | 'K' => 'k' | 'L' => 'l' | 'M' => 'm' | 'N' => 'n' | 'O' => 'o'
  | 'P' => 'p' | 'Q' => 'q' | 'R' => 'r' | 'S' => 's' | 'T' => 't'
  | 'U' => 'u' | 'V' => 'v' | 'W' => 'w' | 'X' => 'x' | 'Y' => 'y'
  | 'Z' => 'z'
  | 'Á' => 'á' | 'É' => 'é' | 'Í' => 'í' | 'Ó' => 'ó' | 'Ú' => 'ú'
  | 'Ñ' => 'ñ' | 'Ü' => 'ü'
  | _ => c

/-- Python's `\s` (ASCII part), also what `str.strip()` removes. -/
def isSpaceChar (c : Char) : Bool :=
  c = ' ' || c = '\t' || c = '\n' || c = '\r' || c = '\x0b' || c = '\x0c'

/-- Python's `\w` on the alphabet relevant to this program: ASCII
alphanumerics, underscore, and the Spanish accented letters. -/
def isWordChar (c : Char) : Bool :=
  ('A' ≤ c && c ≤ 'Z') || ('a' ≤ c && c ≤ 'z') || ('0' ≤ c && c ≤ '9') ||
  c = '_' ||
  c = 'á' || c = 'é' || c = 'í' || c = 'ó' || c = 'ú' || c = 'ñ' || c = 'ü' ||
  c = 'Á' || c = 'É' || c = 'Í' || c = 'Ó' || c = 'Ú' || c = 'Ñ' || c = 'Ü'

/-- Character class `[\s\wº°\d\-\.]` of the Juzgado pattern. -/
def juzClass (c : Char) : Bool :=
  isSpaceChar c || isWordChar c || ('0' ≤ c && c ≤ '9') ||
  c = 'º' || c = '°' || c = '-' || c = '.'

/-- Character class `[A-Z0-9\/\-\.]` of the Expediente pattern; under
`re.IGNORECASE` the range `A-Z` also matches `a-z`. -/
def expClass (c : Char) : Bool :=
  ('A' ≤ c && c ≤ 'Z') || ('a' ≤ c && c ≤ 'z') || ('0' ≤ c && c ≤ '9') ||
  c = '/' || c = '-' || c = '.'

/-- Character class `[\w\d\sº°#\-]` of the Secretaría pattern. -/
def secClass (c : Char) : Bool :=
  isWordChar c || ('0' ≤ c && c ≤ '9') || isSpaceChar c ||
  c = 'º' || c = '°' || c = '#' || c = '-'

/-- Character class `[A-ZÁÉÍÓÚÑa-z\s\.]` of the party-name capture group;
under `re.IGNORECASE` the accented uppercase letters also match their
lowercase forms. -/
def nameClass (c : Char) : Bool :=
  ('A' ≤ c && c ≤ 'Z') || ('a' ≤ c && c ≤ 'z') ||
  c = 'Á' || c = 'É' || c = 'Í' || c = 'Ó' || c = 'Ú' || c = 'Ñ' ||
  c = 'á' || c = 'é' || c = 'í' || c = 'ó' || c = 'ú' || c = 'ñ' ||
  isSpaceChar c || c = '.'

/-- Character class `[:\s]` of the party patterns. -/
def pssChar (c : Char) : Bool := c = ':' || isSpaceChar c

/-- Python `str.strip()`. -/
def stripChars (l : List Char) : List Char :=
  ((l.dropWhile isSpaceChar).reverse.dropWhile isSpaceChar).reverse

/-- Case-insensitive literal match: `matchLit lit s` succeeds when the case
folding of a prefix of `s` equals the case folding of `lit`, returning that
prefix (source casing preserved) and the remaining characters. -/
def matchLit : List Char → List Char → Option (List Char × List Char)
  | [], s => some ([], s)
  | _ :: _, [] => none
  | c :: lit, d :: s =>
    if foldChar d = foldChar c then
      (matchLit lit s).map (fun pr => (d :: pr.1, pr.2))
    else none

/-- Ordered alternation: try each candidate in turn, as a regex alternation
backtracks through its alternatives. -/
def tryEach : List γ → (γ → Option β) → Option β
  | [], _ => none
  | x :: xs, g =>
    match g x with
    | some b => some b
    | none => tryEach xs g

/-- Non-overlapping left-to-right scan, as performed by `re.finditer` /
`re.findall`: at each position try the matcher; on a match of full length
`len` emit its payload and resume after the match (one character further for
a zero-width match), otherwise advance one character.  The fuel argument is
`text.length + 1` at the top level, enough for the whole scan. -/
def scanAux (f : List Char → Option (Nat × List Char)) :
    Nat → List Char → Nat → List (Nat × List Char)
  | 0, _, _ => []
  | fuel + 1, s, i =>
    match f s, s with
    | some (_, v), [] => [(i, v)]
    | some (len, v), c :: s' =>
      (i, v) :: scanAux f fuel ((c :: s').drop (max 1 len)) (i + max 1 len)
    | none, [] => []
    | none, _ :: s' => scanAux f fuel s' (i + 1)

/-- Scan a whole text from position 0. -/
def scan (f : List Char → Option (Nat × List Char)) (text : List Char) :
    List (Nat × List Char) :=
  scanAux f (text.length + 1) text 0

/-- Alternatives of the Juzgado pattern `(Juzgado|Sala|Tribunal)`. -/
def juzLits : List (List Char) :=
  ["Juzgado".toList, "Sala".toList, "Tribunal".toList]

/-- Alternatives of the Expediente pattern
`(Expediente|T\.|Toca|Juicio|Proceso|Asunto)`. -/
def expLits : List (List Char) :=
  ["Expediente".toList, "T.".toList, "Toca".toList, "Juicio".toList,
   "Proceso".toList, "Asunto".toList]

/-- Alternatives of the Secretaría pattern `(Secretar[ií]a|Despacho)`; the
character class `[ií]` is expanded into two literal alternatives. -/
def secLits : List (List Char) :=
  ["Secretaria".toList, "Secretaría".toList, "Despacho".toList]

/-- Matcher for `(Juzgado|Sala|Tribunal)[\s\wº°\d\-\.]*`: the value returned
by `re.findall` is the single capture group, i.e. the matched keyword; the
trailing class run only extends the full match. -/
def juzgadoAt (s : List Char) : Option (Nat × List Char) :=
  tryEach juzLits (fun lit =>
    (matchLit lit s).map (fun pr =>
      (pr.1.length + (pr.2.takeWhile juzClass).length, pr.1)))

/-- One Expediente alternative followed by `\s*[A-Z0-9\/\-\.]+` (at least one
class character required; no whitespace is in the class, so the greedy `\s*`
never needs to backtrack). -/
def expTry (lit s : List Char) : Option (Nat × List Char) :=
  (matchLit lit s).bind (fun pr =>
    let sp := pr.2.takeWhile isSpaceChar
    let run := (pr.2.dropWhile isSpaceChar).takeWhile expClass
    if run.isEmpty then none
    else some (pr.1.length + sp.length + run.length, pr.1))

/-- Matcher for the Expediente pattern. -/
def expedienteAt (s : List Char) : Option (Nat × List Char) :=
  tryEach expLits (fun lit => expTry lit s)

/-- Matcher for `(Secretar[ií]a|Despacho)\s*[\w\d\sº°#\-]*`; the class of the
trailing run contains `\s`, so the two greedy runs fuse into one. -/
def secretariaAt (s : List Char) : Option (Nat × List Char) :=
  tryEach secLits (fun lit =>
    (matchLit lit s).map (fun pr =>
      (pr.1.length + (pr.2.takeWhile secClass).length, pr.1)))

/-- Group capture attempt at a given tail: `([A-ZÁÉÍÓÚÑa-z\s\.]+)` is greedy
and must capture at least one character. -/
def groupAt (tail : List Char) : Option (List Char) :=
  match tail with
  | [] => none
  | c :: _ => if nameClass c then some (tail.takeWhile nameClass) else none

/-- Backtracking of the greedy `[:\s]+` of the party patterns: `k` characters
of the separator run `M` are consumed, `k` counting down from `M.length` to 1,
and the first `k` for which the name group can capture wins. -/
def findK (M rest : List Char) : Nat → Option (Nat × List Char)
  | 0 => none
  | k + 1 =>
    match groupAt (M.drop (k + 1) ++ rest) with
    | some g => some (k + 1, g)
    | none => findK M rest k

/-- One party alternative followed by `[:\s]+([A-ZÁÉÍÓÚÑa-z\s\.]+)`: the
separator run must be non-empty, and the value is the captured group. -/
def partyTry (alt : List Char → Option (List Char × List Char))
    (s : List Char) : Option (Nat × List Char) :=
  (alt s).bind (fun pr =>
    let M := pr.2.takeWhile pssChar
    match findK M (pr.2.dropWhile pssChar) M.length with
    | some kg => some (pr.1.length + kg.1 + kg.2.length, kg.2)
    | none => none)

/-- Literal alternative `Parte\s+Actora` / `Parte\s+Demandada`: the word
"Parte", at least one whitespace character, then the second word. -/
def matchParte (word : List Char) (s : List Char) :
    Option (List Char × List Char) :=
  (matchLit "Parte".toList s).bind (fun pr =>
    let sp := pr.2.takeWhile isSpaceChar
    if sp.isEmpty then none
    else
      (matchLit word (pr.2.dropWhile isSpaceChar)).map (fun pr2 =>
        (pr.1 ++ sp ++ pr2.1, pr2.2)))

/-- Alternatives of `(Demandante|Actor|Parte\s+Actora)`. -/
def dteAlts : List (List Char → Option (List Char × List Char)) :=
  [matchLit "Demandante".toList, matchLit "Actor".toList,
   matchParte "Actora".toList]

/-- Alternatives of `(Demandado|Demandada|Parte\s+Demandada)`. -/
def ddoAlts : List (List Char → Option (List Char × List Char)) :=
  [matchLit "Demandado".toList, matchLit "Demandada".toList,
   matchParte "Demandada".toList]

/-- Matcher for the Demandante pattern. -/
def demandanteAt (s : List Char) : Option (Nat × List Char) :=
  tryEach dteAlts (fun alt => partyTry alt s)

/-- Matcher for the Demandado pattern. -/
def demandadoAt (s : List Char) : Option (Nat × List Char) :=
  tryEach ddoAlts (fun alt => partyTry alt s)

/-- Categories of the fixed pattern table, in its iteration order. -/
inductive Category : Type
  | juzgado | expediente | secretaria | demandante | demandado
deriving DecidableEq

/-- Position of a category in the fixed pattern-table order. -/
def catIdx : Category → Nat
  | .juzgado => 0
  | .expediente => 1
  | .secretaria => 2
  | .demandante => 3
  | .demandado => 4

/-- Matcher of each category's pattern. -/
def patternOf : Category → (List Char → Option (Nat × List Char))
  | .juzgado => juzgadoAt
  | .expediente => expedienteAt
  | .secretaria => secretariaAt
  | .demandante => demandanteAt
  | .demandado => demandadoAt

/-- All matches of one category's pattern over the text, with positions. -/
def scanOf (c : Category) (text : List Char) : List (Nat × List Char) :=
  scan (patternOf c) text

/-- Rows contributed by one category: each match value is stripped, as in
`m.strip()` / `m[-1].strip()`. -/
def blockOf (c : Category) (text : List Char) : List (Category × List Char) :=
  (scanOf c text).map (fun jv => (c, stripChars jv.2))

/-- All rows accumulated across the pattern table, in table order. -/
def analyzeRaw (text : List Char) : List (Category × List Char) :=
  blockOf .juzgado text ++ blockOf .expediente text ++
  blockOf .secretaria text ++ blockOf .demandante text ++
  blockOf .demandado text

/-- Accumulator pass of `drop_duplicates`: keep a row unless an equal row was
already kept. -/
def dedupGo [DecidableEq α] (seen : List α) : List α → List α
  | [] => []
  | x :: xs =>
    if x ∈ seen then dedupGo seen xs else x :: dedupGo (x :: seen) xs

/-- `DataFrame.drop_duplicates()`: keep the first occurrence of each row,
preserving order. -/
def dedupKeepFirst [DecidableEq α] (l : List α) : List α := dedupGo [] l

/-- The model of `analyze_legal_data`: run every pattern of the table over
the full text, strip each value, and drop duplicate (category, value) rows. -/
def analyze_legal_data (text : List Char) : List (Category × List Char) :=
  dedupKeepFirst (analyzeRaw text)

/-- One page of extracted text, as built by `extract_text_with_pages`. -/
structure Page where
  number : Nat
  text : List Char
deriving DecidableEq

/-- One row of `search_in_pdf`'s result: page number, matched substring
(source casing), and the context window. -/
structure SearchHit where
  page : Nat
  matched : List Char
  context : List Char
deriving DecidableEq

/-- Newline normalisation `context.replace("\n", " ")`, character-wise. -/
def normNl (c : Char) : Char := if c = '\n' then ' ' else c

/-- Context window `text[max(0, start-100) : min(len(text), end+100)]` with
newlines replaced by spaces; the clamps are computed over ℤ as in Python. -/
def contextOf (text : List Char) (st en : Nat) : List Char :=
  ((text.drop (max 0 ((st : Int) - 100)).toNat).take
    ((min (text.length : Int) ((en : Int) + 100)).toNat -
      (max 0 ((st : Int) - 100)).toNat)).map normNl

/-- Matcher of the escaped query `re.compile(re.escape(query), re.IGNORECASE)`:
a literal case-insensitive match whose full length is the match length. -/
def litMatcher (q : List Char) (s : List Char) : Option (Nat × List Char) :=
  (matchLit q s).map (fun pr => (pr.1.length, pr.1))

/-- All matches of the query in one page's text, with positions. -/
def findLit (q text : List Char) : List (Nat × List Char) :=
  scan (litMatcher q) text

/-- Concatenation of per-page results, in page order. -/
def joinMap (f : α → List β) (l : List α) : List β := (l.map f).flatten

/-- The model of `search_in_pdf`. -/
def search_in_pdf (pages : List Page) (query : List Char) : List SearchHit :=
  joinMap (fun p =>
    (findLit query p.text).map (fun jm =>
      ⟨p.number, jm.2, contextOf p.text jm.1 (jm.1 + jm.2.length)⟩)) pages

/-- Decidable occurrence test: the query matches (case-insensitively) at
position `p` of the text. -/
def occursAt (q text : List Char) (p : Nat) : Bool :=
  (matchLit q (text.drop p)).isSome

/-- All suffixes of a list, longest first. -/
def sufs : List Char → List (List Char)
  | [] => [[]]
  | c :: s => (c :: s) :: sufs s

/-- Boolean substring test. -/
def infixB (small big : List Char) : Bool :=
  (sufs big).any (fun t => small.isPrefixOf t)

/-- Case-insensitive "contains as substring". -/
def containsCI (big small : List Char) : Prop :=
  infixB (small.map foldChar) (big.map foldChar) = true

/-- Index of the first occurrence of `x` (length of the list when absent);
used to state that deduplication keeps first occurrences. -/
def firstPos [DecidableEq α] (x : α) : List α → Nat
  | [] => 0
  | y :: ys => if y = x then 0 else firstPos x ys + 1

/-! ### Lemmas about the literal matcher and the scanner -/

theorem matchLit_sound :
    ∀ (q s src r : List Char), matchLit q s = some (src, r) →
      src.map foldChar = q.map foldChar ∧ s = src ++ r := by
  intro q
  induction q with
  | nil =>
    intro s src r h
    simp [matchLit] at h
    simp [h.1, h.2]
  | cons c q ih =>
    intro s src r h
    cases s with
    | nil => simp [matchLit] at h
    | cons d s =>
      rw [matchLit] at h
      split at h
      · rcases hm : matchLit q s with _ | ⟨m, r'⟩ <;> rw [hm] at h
        · simp at h
        · simp at h
          obtain ⟨hsrc, hr⟩ := h
          obtain ⟨h1, h2⟩ := ih s m r' hm
          subst hsrc hr
          constructor
          · simp [h1]; assumption
          · simp [h2]
      · simp at h

theorem matchLit_length {q s src r : List Char}
    (h : matchLit q s = some (src, r)) : src.length = q.length := by
  have := (matchLit_sound q s src r h).1
  have := congrArg List.length this
  simpa using this

theorem tryEach_sound {xs : List γ} {g : γ → Option β} {b : β}
    (h : tryEach xs g = some b) : ∃ x ∈ xs, g x = some b := by
  induction xs with
  | nil => simp [tryEach] at h
  | cons x xs ih =>
    rw [tryEach] at h
    split at h
    · exact ⟨x, by simp, by simp_all⟩
    · obtain ⟨y, hy, hgy⟩ := ih h
      exact ⟨y, by simp [hy], hgy⟩

theorem scanAux_mem_ge (f : List Char → Option (Nat × List Char)) :
    ∀ fuel s i jm, jm ∈ scanAux f fuel s i → i ≤ jm.1 := by
  intro fuel
  induction fuel with
  | zero => intro s i jm h; simp [scanAux] at h
  | succ fuel ih =>
    intro s i jm h
    cases s with
    | nil =>
      rcases hfs : f [] with _ | ⟨len, v⟩ <;> simp [scanAux, hfs] at h
      simp [h]
    | cons c s =>
      rcases hfs : f (c :: s) with _ | ⟨len, v⟩ <;> simp [scanAux, hfs] at h
      · exact le_trans (Nat.le_succ i) (ih _ _ _ h)
      · rcases h with h | h
        · simp [h]
        · have := ih _ _ _ h
          omega

theorem scanAux_sound (f : List Char → Option (Nat × List Char)) :
    ∀ fuel s i jm, jm ∈ scanAux f fuel s i →
      ∃ len, f (s.drop (jm.1 - i)) = some (len, jm.2) := by
  intro fuel
  induction fuel with
  | zero => intro s i jm h; simp [scanAux] at h
  | succ fuel ih =>
    intro s i jm h
    cases s with
    | nil =>
      rcases hfs : f [] with _ | ⟨len, v⟩ <;> simp [scanAux, hfs] at h
      subst h
      exact ⟨len, by simpa using hfs⟩
    | cons c s =>
      rcases hfs : f (c :: s) with _ | ⟨len, v⟩ <;> simp [scanAux, hfs] at h
      · have hge := scanAux_mem_ge f fuel s (i + 1) jm h
        obtain ⟨len', hlen'⟩ := ih _ _ _ h
        refine ⟨len', ?_⟩
        have harith : jm.1 - i = (jm.1 - (i + 1)) + 1 := by omega
        rw [harith, List.drop_succ_cons]
        exact hlen'
      · rcases h with h | h
        · subst h
          exact ⟨len, by simpa using hfs⟩
        · have hge := scanAux_mem_ge f fuel _ _ jm h
          obtain ⟨len', hlen'⟩ := ih _ _ _ h
          refine ⟨len', ?_⟩
          rw [List.drop_drop] at hlen'
          have harith : max 1 len + (jm.1 - (i + max 1 len)) = jm.1 - i := by
            omega
          rw [harith] at hlen'
          exact hlen'

theorem scanAux_pairwise (f : List Char → Option (Nat × List Char)) (L : Nat)
    (hL : ∀ s len v, f s = some (len, v) → L ≤ max 1 len) :
    ∀ fuel s i,
      List.Pairwise (fun a b => a.1 + L ≤ b.1) (scanAux f fuel s i) := by
  intro fuel
  induction fuel with
  | zero => intro s i; simp [scanAux]
  | succ fuel ih =>
    intro s i
    cases s with
    | nil =>
      rcases hfs : f [] with _ | ⟨len, v⟩ <;> simp only [scanAux, hfs]
      · exact List.Pairwise.nil
      · exact List.pairwise_singleton _ _
    | cons c s =>
      rcases hfs : f (c :: s) with _ | ⟨len, v⟩ <;> simp only [scanAux, hfs]
      · exact ih _ _
      · refine List.Pairwise.cons ?_ (ih _ _)
        intro b hb
        have h1 := scanAux_mem_ge f fuel _ _ b hb
        have h2 := hL _ _ _ hfs
        simp only
        omega

theorem scanAux_complete_lit (q : List Char) (hq : q ≠ []) :
    ∀ fuel s i pos, s.length < fuel → i ≤ pos →
      (matchLit q (s.drop (pos - i))).isSome = true →
      ∃ jm ∈ scanAux (litMatcher q) fuel s i,
        jm.1 ≤ pos ∧ pos < jm.1 + q.length := by
  intro fuel
  induction fuel with
  | zero => intro s i pos h; omega
  | succ fuel ih =>
    intro s i pos hlen hip hocc
    cases s with
    | nil =>
      exfalso
      rw [List.drop_nil] at hocc
      cases q with
      | nil => exact hq rfl
      | cons a q' => simp [matchLit] at hocc
    | cons c s =>
      have hq1 : 1 ≤ q.length := by
        cases q
        · exact absurd rfl hq
        · simp
      rcases hfs : litMatcher q (c :: s) with _ | ⟨len, v⟩
      · have hne : pos ≠ i := by
          intro h
          subst h
          rw [Nat.sub_self, List.drop_zero] at hocc
          unfold litMatcher at hfs
          rcases hm : matchLit q (c :: s) with _ | pr
          · rw [hm] at hocc
            simp at hocc
          · rw [hm] at hfs
            simp at hfs
        have hip' : i + 1 ≤ pos := by omega
        have hdrop : s.drop (pos - (i + 1)) = (c :: s).drop (pos - i) := by
          have harith : pos - i = (pos - (i + 1)) + 1 := by omega
          rw [harith, List.drop_succ_cons]
        obtain ⟨jm, hjm, h1, h2⟩ :=
          ih s (i + 1) pos (by simp at hlen; omega) hip'
            (by rw [hdrop]; exact hocc)
        refine ⟨jm, ?_, h1, h2⟩
        simp only [scanAux, hfs]
        exact hjm
      · obtain ⟨r, hmr, hlenv⟩ :
            ∃ r, matchLit q (c :: s) = some (v, r) ∧ len = v.length := by
          unfold litMatcher at hfs
          rcases hm : matchLit q (c :: s) with _ | ⟨m, r⟩ <;> rw [hm] at hfs
          · simp at hfs
          · simp at hfs
            exact ⟨r, by rw [hfs.2], hfs.2 ▸ hfs.1.symm⟩
        have hvq : v.length = q.length := matchLit_length hmr
        have hmax : max 1 len = q.length := by omega
        by_cases hcase : pos < i + q.length
        · exact ⟨(i, v), by simp only [scanAux, hfs]; exact List.mem_cons_self _ _,
            hip, hcase⟩
        · have hip' : i + q.length ≤ pos := by omega
          have hdrop : ((c :: s).drop q.length).drop (pos - (i + q.length)) =
              (c :: s).drop (pos - i) := by
            rw [List.drop_drop]
            congr 1
            omega
          have hlen' : ((c :: s).drop q.length).length < fuel := by
            simp [List.length_drop] at hlen ⊢
            omega
          obtain ⟨jm, hjm, h1, h2⟩ :=
            ih _ (i + q.length) pos hlen' hip' (by rw [hdrop]; exact hocc)
          refine ⟨jm, ?_, h1, h2⟩
          simp only [scanAux, hfs, hmax]
          exact List.mem_cons_of_mem _ hjm

theorem findLit_spec {q text : List Char} {jm : Nat × List Char}
    (h : jm ∈ findLit q text) :
    ∃ r, matchLit q (text.drop jm.1) = some (jm.2, r) ∧
      jm.2.map foldChar = q.map foldChar ∧ jm.2.length = q.length ∧
      text.drop jm.1 = jm.2 ++ r := by
  obtain ⟨len, hlen⟩ := scanAux_sound (litMatcher q) _ _ _ _ h
  rw [Nat.sub_zero] at hlen
  unfold litMatcher at hlen
  rcases hm : matchLit q (text.drop jm.1) with _ | ⟨m, r⟩ <;> rw [hm] at hlen
  · simp at hlen
  · simp at hlen
    obtain ⟨h1, h2⟩ := hlen
    subst h2
    obtain ⟨hfold, happ⟩ := matchLit_sound q _ _ _ hm
    exact ⟨r, rfl, hfold, matchLit_length hm, happ⟩

theorem findLit_pos_bound {q text : List Char} (hq : q ≠ [])
    {jm : Nat × List Char} (h : jm ∈ findLit q text) :
    jm.1 + q.length ≤ text.length := by
  obtain ⟨r, hm, hfold, hlen, happ⟩ := findLit_spec h
  have hlens := congrArg List.length happ
  simp [List.length_drop, List.length_append] at hlens
  rw [hlen] at hlens
  have hq1 : 1 ≤ q.length := by
    cases q
    · exact absurd rfl hq
    · simp
  omega

theorem scanAux_nil_query :
    ∀ fuel s i, s.length < fuel →
      (scanAux (litMatcher []) fuel s i).length = s.length + 1 ∧
      ∀ jm ∈ scanAux (litMatcher []) fuel s i, jm.2 = ([] : List Char) := by
  intro fuel
  induction fuel with
  | zero => intro s i h; omega
  | succ fuel ih =>
    intro s i hlen
    have hfs : ∀ t : List Char, litMatcher [] t = some (0, []) := fun _ => rfl
    cases s with
    | nil =>
      simp only [scanAux, hfs]
      constructor
      · simp
      · intro jm hjm
        simp at hjm
        simp [hjm]
    | cons c s =>
      simp only [scanAux, hfs, Nat.max_zero]
      have hdrop : (c :: s).drop 1 = s := rfl
      rw [hdrop]
      obtain ⟨ihl, ihm⟩ := ih s (i + 1) (by simp at hlen; omega)
      constructor
      · simp [ihl]
      · intro jm hjm
        rcases List.mem_cons.mp hjm with h | h
        · simp [h]
        · exact ihm jm h

/-! ### Lemmas about deduplication, stripping, folding and substrings -/

theorem dedupGo_mem [DecidableEq α] {l : List α} :
    ∀ {seen : List α} {x : α}, x ∈ dedupGo seen l → x ∈ l ∧ x ∉ seen := by
  induction l with
  | nil => intro seen x h; simp [dedupGo] at h
  | cons c l ih =>
    intro seen x h
    by_cases hc : c ∈ seen
    · rw [dedupGo, if_pos hc] at h
      obtain ⟨h1, h2⟩ := ih h
      exact ⟨List.mem_cons_of_mem _ h1, h2⟩
    · rw [dedupGo, if_neg hc] at h
      rcases List.mem_cons.mp h with h | h
      · subst h
        exact ⟨List.mem_cons_self _ _, hc⟩
      · obtain ⟨h1, h2⟩ := ih h
        exact ⟨List.mem_cons_of_mem _ h1,
          fun hx => h2 (List.mem_cons_of_mem _ hx)⟩

theorem dedupGo_nodup [DecidableEq α] :
    ∀ (l seen : List α), (dedupGo seen l).Nodup := by
  intro l
  induction l with
  | nil => intro seen; simp [dedupGo]
  | cons c l ih =>
    intro seen
    by_cases hc : c ∈ seen
    · rw [dedupGo, if_pos hc]
      exact ih seen
    · rw [dedupGo, if_neg hc]
      refine List.nodup_cons.mpr ⟨?_, ih _⟩
      intro hmem
      exact (dedupGo_mem hmem).2 (List.mem_cons_self _ _)

theorem dedupGo_sublist [DecidableEq α] :
    ∀ (l seen : List α), (dedupGo seen l).Sublist l := by
  intro l
  induction l with
  | nil => intro seen; simp [dedupGo]
  | cons c l ih =>
    intro seen
    by_cases hc : c ∈ seen
    · rw [dedupGo, if_pos hc]
      exact (ih seen).cons c
    · rw [dedupGo, if_neg hc]
      exact (ih (c :: seen)).cons₂ c

theorem mem_dedupGo_of_mem [DecidableEq α] {l : List α} :
    ∀ {seen : List α} {x : α}, x ∈ l → x ∉ seen → x ∈ dedupGo seen l := by
  induction l with
  | nil => intro seen x h; simp at h
  | cons c l ih =>
    intro seen x hx hs
    by_cases hc : c ∈ seen
    · rw [dedupGo, if_pos hc]
      rcases List.mem_cons.mp hx with h | h
      · exact absurd (h ▸ hc) hs
      · exact ih h hs
    · rw [dedupGo, if_neg hc]
      rcases List.mem_cons.mp hx with h | h
      · subst h
        exact List.mem_cons_self _ _
      · by_cases hxc : x = c
        · subst hxc
          exact List.mem_cons_self _ _
        · refine List.mem_cons_of_mem _ (ih h ?_)
          intro hmem
          rcases List.mem_cons.mp hmem with h' | h'
          · exact hxc h'
          · exact hs h'

theorem dedupGo_pairwise_firstPos [DecidableEq α] :
    ∀ (l seen : List α),
      List.Pairwise (fun a b => firstPos a l < firstPos b l) (dedupGo seen l) := by
  intro l
  induction l with
  | nil => intro seen; simp [dedupGo]
  | cons c l ih =>
    intro seen
    by_cases hc : c ∈ seen
    · rw [dedupGo, if_pos hc]
      refine List.Pairwise.imp_of_mem ?_ (ih seen)
      intro a b ha hb hab
      have hac : ¬ (c = a) := fun h => (dedupGo_mem ha).2 (h ▸ hc)
      have hbc : ¬ (c = b) := fun h => (dedupGo_mem hb).2 (h ▸ hc)
      simp only [firstPos, if_neg hac, if_neg hbc]
      omega
    · rw [dedupGo, if_neg hc]
      refine List.Pairwise.cons ?_ ?_
      · intro b hb
        have hbc : ¬ (c = b) :=
          fun h => (dedupGo_mem hb).2 (h ▸ List.mem_cons_self _ _)
        simp only [firstPos, if_neg hbc]
        simp
      · refine List.Pairwise.imp_of_mem ?_ (ih (c :: seen))
        intro a b ha hb hab
        have hac : ¬ (c = a) :=
          fun h => (dedupGo_mem ha).2 (h ▸ List.mem_cons_self _ _)
        have hbc : ¬ (c = b) :=
          fun h => (dedupGo_mem hb).2 (h ▸ List.mem_cons_self _ _)
        simp only [firstPos, if_neg hac, if_neg hbc]
        omega

theorem stripChars_all_space {l : List Char} (h : stripChars l = []) :
    ∀ c ∈ l, isSpaceChar c = true := by
  unfold stripChars at h
  rw [List.reverse_eq_nil_iff, List.dropWhile_eq_nil_iff] at h
  intro c hc
  by_cases hcs : isSpaceChar c
  · exact hcs
  · exfalso
    have hmem : c ∈ l.dropWhile isSpaceChar := by
      have hsplit := List.takeWhile_append_dropWhile isSpaceChar l
      rw [← hsplit] at hc
      rcases List.mem_append.mp hc with h' | h'
      · exact absurd (List.mem_takeWhile_imp h') hcs
      · exact h'
    exact hcs (h c (List.mem_reverse.mpr hmem))

theorem stripChars_ne_nil {l : List Char} {c : Char} (hc : c ∈ l)
    (hcs : isSpaceChar c = false) : stripChars l ≠ [] := by
  intro h
  have := stripChars_all_space h c hc
  rw [this] at hcs
  simp at hcs

theorem isSpaceChar_foldChar (c : Char) :
    isSpaceChar (foldChar c) = isSpaceChar c := by
  unfold foldChar
  split <;> rfl

theorem foldChar_eq_nl {c : Char} (h : foldChar c = '\n') : c = '\n' := by
  unfold foldChar at h
  split at h <;> simp_all

theorem isPrefixOf_append (l t : List Char) : l.isPrefixOf (l ++ t) = true := by
  induction l with
  | nil => simp
  | cons c l ih => simp [List.isPrefixOf, ih]

theorem sufs_shape (l : List Char) : ∃ rest, sufs l = l :: rest := by
  cases l <;> exact ⟨_, rfl⟩

theorem infixB_of_append (m X Y : List Char) :
    infixB m (X ++ m ++ Y) = true := by
  induction X with
  | nil =>
    simp only [List.nil_append]
    obtain ⟨rest, hr⟩ := sufs_shape (m ++ Y)
    unfold infixB
    rw [hr]
    simp [isPrefixOf_append]
  | cons c X ih =>
    have hshape : (c :: X) ++ m ++ Y = c :: (X ++ m ++ Y) := by simp
    unfold infixB at ih ⊢
    rw [hshape, sufs]
    simp only [List.any_cons, ih]
    simp

/-! ### Pattern-value extraction lemmas -/

theorem juzgadoAt_value {s : List Char} {len : Nat} {v : List Char}
    (h : juzgadoAt s = some (len, v)) :
    ∃ lit ∈ juzLits, ∃ r, matchLit lit s = some (v, r) := by
  unfold juzgadoAt at h
  obtain ⟨lit, hlit, hlit2⟩ := tryEach_sound h
  rcases hm : matchLit lit s with _ | ⟨m, r⟩ <;> rw [hm] at hlit2
  · simp at hlit2
  · simp at hlit2
    obtain ⟨-, h2⟩ := hlit2
    subst h2
    exact ⟨lit, hlit, r, hm⟩

theorem secretariaAt_value {s : List Char} {len : Nat} {v : List Char}
    (h : secretariaAt s = some (len, v)) :
    ∃ lit ∈ secLits, ∃ r, matchLit lit s = some (v, r) := by
  unfold secretariaAt at h
  obtain ⟨lit, hlit, hlit2⟩ := tryEach_sound h
  rcases hm : matchLit lit s with _ | ⟨m, r⟩ <;> rw [hm] at hlit2
  · simp at hlit2
  · simp at hlit2
    obtain ⟨-, h2⟩ := hlit2
    subst h2
    exact ⟨lit, hlit, r, hm⟩

theorem expedienteAt_value {s : List Char} {len : Nat} {v : List Char}
    (h : expedienteAt s = some (len, v)) :
    ∃ lit ∈ expLits, ∃ r, matchLit lit s = some (v, r) := by
  unfold expedienteAt at h
  obtain ⟨lit, hlit, hlit2⟩ := tryEach_sound h
  unfold expTry at hlit2
  rcases hm : matchLit lit s with _ | ⟨m, r⟩ <;> rw [hm] at hlit2
  · simp at hlit2
  · simp only [Option.some_bind] at hlit2
    split at hlit2
    · simp at hlit2
    · simp at hlit2
      obtain ⟨-, h2⟩ := hlit2
      subst h2
      exact ⟨lit, hlit, r, hm⟩

theorem mem_dropWhile_not_space {l : List Char} {c : Char} (hc : c ∈ l)
    (hcs : isSpaceChar c = false) : c ∈ l.dropWhile isSpaceChar := by
  have hsplit := List.takeWhile_append_dropWhile isSpaceChar l
  rw [← hsplit] at hc
  rcases List.mem_append.mp hc with h | h
  · exact absurd (List.mem_takeWhile_imp h) (by simp [hcs])
  · exact h

theorem mem_stripChars {l : List Char} {c : Char} (hc : c ∈ l)
    (hcs : isSpaceChar c = false) : c ∈ stripChars l := by
  unfold stripChars
  rw [List.mem_reverse]
  exact mem_dropWhile_not_space
    (List.mem_reverse.mpr (mem_dropWhile_not_space hc hcs)) hcs

theorem exists_nonspace_of_fold {lit v : List Char}
    (hm : v.map foldChar = lit.map foldChar)
    (hhead : isSpaceChar (foldChar (lit.headD ' ')) = false)
    (hne : lit ≠ []) : ∃ d ∈ v, isSpaceChar d = false := by
  cases lit with
  | nil => exact absurd rfl hne
  | cons c0 lit =>
    cases v with
    | nil => simp at hm
    | cons d v =>
      simp at hm
      refine ⟨d, List.mem_cons_self d v, ?_⟩
      rw [← isSpaceChar_foldChar d, hm.1]
      simpa using hhead

theorem juz_heads_ok :
    ∀ lit ∈ juzLits, lit ≠ [] ∧ isSpaceChar (foldChar (lit.headD ' ')) = false := by
  decide

theorem exp_heads_ok :
    ∀ lit ∈ expLits, lit ≠ [] ∧ isSpaceChar (foldChar (lit.headD ' ')) = false := by
  decide

theorem sec_heads_ok :
    ∀ lit ∈ secLits, lit ≠ [] ∧ isSpaceChar (foldChar (lit.headD ' ')) = false := by
  decide

/-! ### Claim theorems -/

/-- Claim C1 (counterexample): on the text "Juzgado Primero Civil de
Distrito", no returned row of category Juzgado has a value containing that
whole phrase — `re.findall` returns the capture group (the keyword), not the
entire match. -/
theorem c1_counterexample :
    ¬ ∃ r ∈ analyze_legal_data "Juzgado Primero Civil de Distrito".toList,
        r.1 = Category.juzgado ∧
        infixB "Juzgado Primero Civil de Distrito".toList r.2 = true := by
  decide

/-- Claim C1 (amended): the analysis of "Juzgado Primero Civil de Distrito"
yields exactly one row, (Juzgado, "Juzgado"), and in general every Juzgado
row's value is the stripped capture group, which case-folds to one of the
keywords "Juzgado"/"Sala"/"Tribunal" — never the entire match. -/
theorem c1_amended_correct :
    analyze_legal_data "Juzgado Primero Civil de Distrito".toList =
      [(Category.juzgado, "Juzgado".toList)] ∧
    ∀ (text : List Char) (r : Category × List Char),
      r ∈ blockOf Category.juzgado text →
      ∃ jv ∈ scanOf Category.juzgado text,
        r = (Category.juzgado, stripChars jv.2) ∧
        ∃ lit ∈ juzLits, jv.2.map foldChar = lit.map foldChar := by
  constructor
  · decide
  · intro text r hr
    unfold blockOf at hr
    rw [List.mem_map] at hr
    obtain ⟨jv, hjv, hre⟩ := hr
    refine ⟨jv, hjv, hre.symm, ?_⟩
    unfold scanOf scan at hjv
    obtain ⟨len, hsome⟩ := scanAux_sound _ _ _ _ _ hjv
    rw [Nat.sub_zero] at hsome
    simp only [patternOf] at hsome
    obtain ⟨lit, hlit, r', hmlit⟩ := juzgadoAt_value hsome
    exact ⟨lit, hlit, (matchLit_sound _ _ _ _ hmlit).1⟩

/-- Claim C1 (witness): the general part of the amended claim instantiated on
the scenario text. -/
theorem c1_witness :
    ∃ jv ∈ scanOf Category.juzgado "Juzgado Primero Civil de Distrito".toList,
      ((Category.juzgado, "Juzgado".toList) : Category × List Char) =
        (Category.juzgado, stripChars jv.2) ∧
      ∃ lit ∈ juzLits, jv.2.map foldChar = lit.map foldChar :=
  c1_amended_correct.2 _ _ (by decide)

/-- Claim C2 (counterexample): for the text "El Demandado: Juan Pérez López
compareció" the Demandado value is not "Juan Pérez López" — the greedy name
group also captures the following word. -/
theorem c2_counterexample :
    (Category.demandado, "Juan Pérez López".toList) ∉
      analyze_legal_data "El Demandado: Juan Pérez López compareció".toList := by
  decide

/-- Claim C2 (amended): the Demandado value on that text is "Juan Pérez López
compareció": the greedy capture group extends through every following letter
or space, so trailing words are included (still trimmed, with no leading
colon or space). -/
theorem c2_amended_correct :
    analyze_legal_data "El Demandado: Juan Pérez López compareció".toList =
      [(Category.demandado, "Juan Pérez López compareció".toList)] := by
  decide

/-- Claim C3 (counterexample): searching with the empty query is not a no-op
with zero hits — it produces zero-width hits. -/
theorem c3_counterexample :
    search_in_pdf [⟨1, "a".toList⟩] [] ≠ [] := by
  decide

/-- Claim C3 (amended): with the empty query, `search_in_pdf` returns one
zero-width hit per character position of each page — `text.length + 1` hits
per page, each with empty matched text — rather than zero hits. -/
theorem c3_amended_correct (pages : List Page) :
    (search_in_pdf pages []).length =
      (pages.map (fun p => p.text.length + 1)).sum ∧
    ∀ hit ∈ search_in_pdf pages [], hit.matched = [] := by
  constructor
  · unfold search_in_pdf joinMap
    rw [List.length_flatten, List.map_map]
    congr 1
    refine List.map_congr_left ?_
    intro p hp
    simp only [Function.comp_apply, List.length_map]
    exact (scanAux_nil_query _ _ 0 (Nat.lt_succ_self _)).1
  · intro hit hmem
    unfold search_in_pdf joinMap at hmem
    rw [List.mem_flatten] at hmem
    obtain ⟨l, hl, hhit⟩ := hmem
    rw [List.mem_map] at hl
    obtain ⟨p, hp, rfl⟩ := hl
    rw [List.mem_map] at hhit
    obtain ⟨jm, hjm, rfl⟩ := hhit
    exact (scanAux_nil_query _ _ 0 (Nat.lt_succ_self _)).2 jm hjm

/-- Claim C3 (witness): a two-character page yields three zero-width hits. -/
theorem c3_witness : (search_in_pdf [⟨1, "ab".toList⟩] []).length = 3 := by
  have h := (c3_amended_correct [⟨1, "ab".toList⟩]).1
  simpa using h

/-- Claim C4 (counterexample): a whitespace-only capture survives: the party
patterns can produce an empty value (e.g. when the separator run is followed
by a character outside the name class), so not every LegalField value is
non-empty. -/
theorem c4_counterexample :
    (Category.demandado, ([] : List Char)) ∈
      analyze_legal_data "Demandado: 5".toList ∧
    (Category.demandante, ([] : List Char)) ∈
      analyze_legal_data "Demandante: 5".toList := by
  decide

/-- Claim C4 (amended): every LegalField of category Juzgado, Expediente or
Secretaría has a value that is non-empty and not whitespace-only after
trimming; only Demandante/Demandado rows can carry an empty value. -/
theorem c4_amended_correct (text : List Char) (r : Category × List Char)
    (hr : r ∈ analyze_legal_data text)
    (hc : r.1 = Category.juzgado ∨ r.1 = Category.expediente ∨
          r.1 = Category.secretaria) :
    r.2 ≠ [] ∧ stripChars r.2 ≠ [] := by
  have hraw : r ∈ analyzeRaw text := (dedupGo_mem hr).1
  unfold analyzeRaw at hraw
  rcases List.mem_append.mp hraw with h | h5
  rotate_left
  · -- demandado block: excluded by the category hypothesis
    unfold blockOf at h5
    rw [List.mem_map] at h5
    obtain ⟨jv, hjv, hre⟩ := h5
    rw [← hre] at hc
    rcases hc with h | h | h <;> simp at h
  rcases List.mem_append.mp h with h | h4
  rotate_left
  · -- demandante block: excluded by the category hypothesis
    unfold blockOf at h4
    rw [List.mem_map] at h4
    obtain ⟨jv, hjv, hre⟩ := h4
    rw [← hre] at hc
    rcases hc with h | h | h <;> simp at h
  rcases List.mem_append.mp h with h | h3
  rotate_left
  · -- secretaria block
    unfold blockOf at h3
    rw [List.mem_map] at h3
    obtain ⟨jv, hjv, hre⟩ := h3
    unfold scanOf scan at hjv
    obtain ⟨len, hsome⟩ := scanAux_sound _ _ _ _ _ hjv
    simp only [patternOf] at hsome
    obtain ⟨lit, hlit, r', hmlit⟩ := secretariaAt_value hsome
    obtain ⟨hne, hhead⟩ := sec_heads_ok lit hlit
    obtain ⟨d, hd, hds⟩ :=
      exists_nonspace_of_fold (matchLit_sound _ _ _ _ hmlit).1 hhead hne
    rw [← hre]
    exact ⟨stripChars_ne_nil hd hds,
      stripChars_ne_nil (mem_stripChars hd hds) hds⟩
  rcases List.mem_append.mp h with h1 | h2
  · -- juzgado block
    unfold blockOf at h1
    rw [List.mem_map] at h1
    obtain ⟨jv, hjv, hre⟩ := h1
    unfold scanOf scan at hjv
    obtain ⟨len, hsome⟩ := scanAux_sound _ _ _ _ _ hjv
    simp only [patternOf] at hsome
    obtain ⟨lit, hlit, r', hmlit⟩ := juzgadoAt_value hsome
    obtain ⟨hne, hhead⟩ := juz_heads_ok lit hlit
    obtain ⟨d, hd, hds⟩ :=
      exists_nonspace_of_fold (matchLit_sound _ _ _ _ hmlit).1 hhead hne
    rw [← hre]
    exact ⟨stripChars_ne_nil hd hds,
      stripChars_ne_nil (mem_stripChars hd hds) hds⟩
  · -- expediente block
    unfold blockOf at h2
    rw [List.mem_map] at h2
    obtain ⟨jv, hjv, hre⟩ := h2
    unfold scanOf scan at hjv
    obtain ⟨len, hsome⟩ := scanAux_sound _ _ _ _ _ hjv
    simp only [patternOf] at hsome
    obtain ⟨lit, hlit, r', hmlit⟩ := expedienteAt_value hsome
    obtain ⟨hne, hhead⟩ := exp_heads_ok lit hlit
    obtain ⟨d, hd, hds⟩ :=
      exists_nonspace_of_fold (matchLit_sound _ _ _ _ hmlit).1 hhead hne
    rw [← hre]
    exact ⟨stripChars_ne_nil hd hds,
      stripChars_ne_nil (mem_stripChars hd hds) hds⟩

/-- Claim C4 (witness): the amended claim instantiated on a Juzgado row. -/
theorem c4_witness :
    (Category.juzgado, "Juzgado".toList) ∈
      analyze_legal_data "Juzgado".toList ∧
    "Juzgado".toList ≠ [] ∧ stripChars "Juzgado".toList ≠ [] := by
  have h := c4_amended_correct "Juzgado".toList
    (Category.juzgado, "Juzgado".toList) (by decide) (Or.inl rfl)
  exact ⟨by decide, h.1, h.2⟩

/-- Claim C7: `analyze_legal_data` never returns two rows with identical
(category, value): deduplication makes the result table pairwise distinct. -/
theorem c7_dedup_nodup (text : List Char) :
    (analyze_legal_data text).Nodup :=
  dedupGo_nodup _ []

/-! ### Lemmas about search hits and context windows -/

theorem search_hit_mem {pages : List Page} {q : List Char} {h : SearchHit}
    (hm : h ∈ search_in_pdf pages q) :
    ∃ p ∈ pages, ∃ jm ∈ findLit q p.text,
      h = ⟨p.number, jm.2, contextOf p.text jm.1 (jm.1 + jm.2.length)⟩ := by
  unfold search_in_pdf joinMap at hm
  rw [List.mem_flatten] at hm
  obtain ⟨l, hl, hh⟩ := hm
  rw [List.mem_map] at hl
  obtain ⟨p, hp, rfl⟩ := hl
  rw [List.mem_map] at hh
  obtain ⟨jm, hjm, rfl⟩ := hh
  exact ⟨p, hp, jm, hjm, rfl⟩

theorem contextOf_length (text : List Char) (st k : Nat) :
    (contextOf text st (st + k)).length ≤ k + 200 := by
  unfold contextOf
  simp only [List.length_map, List.length_take, List.length_drop]
  omega

theorem contextOf_zero (text : List Char) (k : Nat) :
    contextOf text 0 k = (text.take (min text.length (k + 100))).map normNl := by
  unfold contextOf
  have ha : (max 0 (((0 : Nat) : ℤ) - 100)).toNat = 0 := by omega
  have hb : (min (text.length : ℤ) (((k : Nat) : ℤ) + 100)).toNat =
      min text.length (k + 100) := by omega
  rw [ha, hb]
  simp

theorem infixB_nil (big : List Char) : infixB [] big = true := by
  obtain ⟨rest, hr⟩ := sufs_shape big
  unfold infixB
  rw [hr]
  simp [List.isPrefixOf]

theorem matched_in_context {T m r : List Char} {st : Nat}
    (happ : T.drop st = m ++ r) (hm1 : 1 ≤ m.length) :
    ∃ X Y, contextOf T st (st + m.length) = X ++ m.map normNl ++ Y := by
  unfold contextOf
  set a := (max 0 ((st : ℤ) - 100)).toNat with ha
  set b := (min (T.length : ℤ) (((st + m.length : Nat) : ℤ) + 100)).toNat
    with hb
  have hlens := congrArg List.length happ
  simp only [List.length_drop, List.length_append] at hlens
  have hst : st ≤ T.length := by omega
  have haj : a ≤ st := by omega
  have hjb : st + m.length ≤ b := by omega
  have hbT : b ≤ T.length := by omega
  have hsplit1 : b - a = (st - a) + (b - st) := by omega
  have hdrop : (T.drop a).drop (st - a) = T.drop st := by
    rw [List.drop_drop]
    congr 1
    omega
  have htm : List.take (b - st) m = m := List.take_of_length_le (by omega)
  have hslice : (T.drop a).take (b - a) =
      (T.drop a).take (st - a) ++ (m ++ r.take (b - st - m.length)) := by
    rw [hsplit1, List.take_add, hdrop, happ, List.take_append_eq_append_take,
      htm]
  refine ⟨((T.drop a).take (st - a)).map normNl,
    (r.take (b - st - m.length)).map normNl, ?_⟩
  rw [hslice]
  simp [List.map_append, List.append_assoc]

/-- Claim C5: every hit's context is exactly the page-text slice from
`max(0, start-100)` to `min(pageLength, end+100)` with newlines replaced by
spaces, its length never exceeds the matched text's length plus 200, and a
match at position 0 yields the context window starting at index 0 of the
page text. -/
theorem c5_context_window (pages : List Page) (q : List Char) (h : SearchHit)
    (hm : h ∈ search_in_pdf pages q) :
    (∃ p ∈ pages, ∃ jm ∈ findLit q p.text,
       h.page = p.number ∧ h.matched = jm.2 ∧
       h.context = contextOf p.text jm.1 (jm.1 + jm.2.length) ∧
       (jm.1 = 0 → h.context =
         (p.text.take (min p.text.length (jm.2.length + 100))).map normNl)) ∧
    h.context.length ≤ h.matched.length + 200 := by
  obtain ⟨p, hp, jm, hjm, rfl⟩ := search_hit_mem hm
  refine ⟨⟨p, hp, jm, hjm, rfl, rfl, rfl, ?_⟩, contextOf_length _ _ _⟩
  intro h0
  show contextOf p.text jm.1 (jm.1 + jm.2.length) = _
  rw [h0]
  simpa using contextOf_zero p.text jm.2.length

/-- Claim C5 (witness): instantiated on a one-character page. -/
theorem c5_witness :
    (⟨1, "x".toList, "x".toList⟩ : SearchHit) ∈
      search_in_pdf [⟨1, "x".toList⟩] "x".toList ∧
    (⟨1, "x".toList, "x".toList⟩ : SearchHit).context.length ≤
      (⟨1, "x".toList, "x".toList⟩ : SearchHit).matched.length + 200 := by
  have h := c5_context_window [⟨1, "x".toList⟩] "x".toList
    ⟨1, "x".toList, "x".toList⟩ (by decide)
  exact ⟨by decide, h.2⟩

/-- Claim C6 (counterexample): when the query contains a newline, the context
(whose newlines are replaced by spaces) does not contain the matched text,
even case-insensitively. -/
theorem c6_counterexample :
    (⟨1, "a\nb".toList, "a b".toList⟩ : SearchHit) ∈
      search_in_pdf [⟨1, "a\nb".toList⟩] "a\nb".toList ∧
    ¬ containsCI "a b".toList "a\nb".toList := by
  constructor
  · decide
  · show ¬ (infixB _ _ = true)
    decide

/-- Claim C6 (amended): for every query containing no newline character,
every returned hit's context contains its matched text as a substring,
compared case-insensitively. -/
theorem c6_amended_correct (pages : List Page) (q : List Char)
    (hnl : '\n' ∉ q) (h : SearchHit) (hm : h ∈ search_in_pdf pages q) :
    containsCI h.context h.matched := by
  obtain ⟨p, hp, jm, hjm, rfl⟩ := search_hit_mem hm
  obtain ⟨r, hmr, hfold, hlen, happ⟩ := findLit_spec hjm
  have hmnl : '\n' ∉ jm.2 := by
    intro hmem
    apply hnl
    have h1 : foldChar '\n' ∈ jm.2.map foldChar := List.mem_map_of_mem _ hmem
    rw [hfold, List.mem_map] at h1
    obtain ⟨c, hc, hfc⟩ := h1
    have hcn : c = '\n' := foldChar_eq_nl (by simpa using hfc)
    rwa [← hcn]
  rcases Nat.eq_zero_or_pos jm.2.length with hq0 | hq0
  · have : jm.2 = [] := List.length_eq_zero.mp hq0
    show containsCI _ jm.2
    unfold containsCI
    rw [this]
    simpa using infixB_nil _
  · obtain ⟨X, Y, hXY⟩ := matched_in_context happ hq0
    show containsCI (contextOf p.text jm.1 (jm.1 + jm.2.length)) jm.2
    unfold containsCI
    rw [hXY]
    have hnorm : (jm.2.map normNl).map foldChar = jm.2.map foldChar := by
      rw [List.map_map]
      refine List.map_congr_left ?_
      intro c hc
      have hcn : c ≠ '\n' := fun h => hmnl (h ▸ hc)
      simp [Function.comp_apply, normNl, hcn]
    rw [List.map_append, List.map_append, hnorm]
    exact infixB_of_append _ _ _

/-- Claim C6 (witness): instantiated on a one-character page. -/
theorem c6_witness :
    (⟨1, "x".toList, "x".toList⟩ : SearchHit) ∈
      search_in_pdf [⟨1, "x".toList⟩] "x".toList ∧
    containsCI (⟨1, "x".toList, "x".toList⟩ : SearchHit).context
      (⟨1, "x".toList, "x".toList⟩ : SearchHit).matched := by
  refine ⟨by decide, ?_⟩
  exact c6_amended_correct [⟨1, "x".toList⟩] "x".toList (by decide) _
    (by decide)

/-- Claim C9: every hit's matched text is the exact substring of the page
text at the match position (source casing preserved), has the query's length,
and case-folds to the query — the escaped query acts as a literal. -/
theorem c9_matched_text (pages : List Page) (q : List Char) (hq : q ≠ [])
    (h : SearchHit) (hm : h ∈ search_in_pdf pages q) :
    ∃ p ∈ pages, ∃ jm ∈ findLit q p.text,
      h.matched = jm.2 ∧
      jm.2 = (p.text.drop jm.1).take q.length ∧
      jm.2.length = q.length ∧
      jm.2.map foldChar = q.map foldChar ∧
      jm.1 + q.length ≤ p.text.length := by
  obtain ⟨p, hp, jm, hjm, rfl⟩ := search_hit_mem hm
  obtain ⟨r, hmr, hfold, hlen, happ⟩ := findLit_spec hjm
  refine ⟨p, hp, jm, hjm, rfl, ?_, hlen, hfold, findLit_pos_bound hq hjm⟩
  rw [happ, ← hlen, List.take_left]

/-- Claim C9 (witness): instantiated on the page "aba" and query "a". -/
theorem c9_witness :
    ∃ p ∈ [(⟨1, "aba".toList⟩ : Page)], ∃ jm ∈ findLit "a".toList p.text,
      (⟨1, "a".toList, "aba".toList⟩ : SearchHit).matched = jm.2 ∧
      jm.2 = (p.text.drop jm.1).take ("a".toList).length ∧
      jm.2.length = ("a".toList).length ∧
      jm.2.map foldChar = ("a".toList).map foldChar ∧
      jm.1 + ("a".toList).length ≤ p.text.length :=
  c9_matched_text _ _ (by decide) _ (by decide)

theorem findLit_pairwise (q : List Char) (text : List Char) :
    List.Pairwise (fun a b => a.1 + q.length ≤ b.1) (findLit q text) := by
  unfold findLit scan
  refine scanAux_pairwise _ _ ?_ _ _ _
  intro s len v hfs
  unfold litMatcher at hfs
  rcases hm : matchLit q s with _ | ⟨m, r⟩ <;> rw [hm] at hfs
  · simp at hfs
  · simp at hfs
    have := matchLit_length hm
    omega

/-- Claim C8: for a non-empty query, `search_in_pdf` reports, per page,
occurrences that are genuine case-insensitive matches, pairwise
non-overlapping and in ascending position order, and complete for the greedy
left-to-right scan (every occurrence overlaps a reported match); across pages
the (page number, position) pairs are in strict lexicographic order, and the
hit list is exactly the per-page concatenation. -/
theorem c8_scan_order (pages : List Page) (q : List Char) (hq : q ≠ [])
    (hp : List.Pairwise (fun p1 p2 => p1.number < p2.number) pages) :
    (∀ p ∈ pages,
       (∀ jm ∈ findLit q p.text, occursAt q p.text jm.1 = true) ∧
       List.Pairwise (fun a b => a.1 + q.length ≤ b.1) (findLit q p.text) ∧
       (∀ pos, occursAt q p.text pos = true →
         ∃ jm ∈ findLit q p.text, jm.1 ≤ pos ∧ pos < jm.1 + q.length)) ∧
    List.Pairwise
      (fun a b => a.1 < b.1 ∨ (a.1 = b.1 ∧ a.2.1 < b.2.1))
      (joinMap (fun p => (findLit q p.text).map (fun jm => (p.number, jm)))
        pages) ∧
    search_in_pdf pages q =
      joinMap (fun p => (findLit q p.text).map (fun jm =>
        ⟨p.number, jm.2, contextOf p.text jm.1 (jm.1 + jm.2.length)⟩))
        pages := by
  have hq1 : 1 ≤ q.length := by
    cases q
    · exact absurd rfl hq
    · simp
  refine ⟨?_, ?_, rfl⟩
  · intro p hp'
    refine ⟨?_, findLit_pairwise q p.text, ?_⟩
    · intro jm hjm
      obtain ⟨r, hmr, -, -, -⟩ := findLit_spec hjm
      unfold occursAt
      rw [hmr]
      rfl
    · intro pos hocc
      unfold occursAt at hocc
      unfold findLit scan
      exact scanAux_complete_lit q hq _ p.text 0 pos (Nat.lt_succ_self _)
        (Nat.zero_le _) (by rwa [Nat.sub_zero])
  · unfold joinMap
    rw [List.pairwise_flatten]
    constructor
    · intro l hl
      rw [List.mem_map] at hl
      obtain ⟨p, hp', rfl⟩ := hl
      rw [List.pairwise_map]
      refine (findLit_pairwise q p.text).imp ?_
      intro a b hab
      exact Or.inr ⟨rfl, show a.1 < b.1 by omega⟩
    · rw [List.pairwise_map]
      refine hp.imp ?_
      intro p1 p2 h12
      intro x hx y hy
      rw [List.mem_map] at hx hy
      obtain ⟨jm1, -, rfl⟩ := hx
      obtain ⟨jm2, -, rfl⟩ := hy
      exact Or.inl h12

/-- Claim C8 (witness): the per-page ordering fact instantiated on the page
"aba" with query "a". -/
theorem c8_witness :
    List.Pairwise (fun a b => a.1 + ("a".toList).length ≤ b.1)
      (findLit "a".toList "aba".toList) := by
  have h := c8_scan_order [⟨1, "aba".toList⟩] "a".toList (by decide)
    (List.pairwise_singleton _ _)
  exact (h.1 ⟨1, "aba".toList⟩ (List.mem_singleton.mpr rfl)).2.1

/-! ### Output-order lemmas for the analyzer -/

theorem pairwise_of_all {R : α → α → Prop} (h : ∀ a b, R a b) :
    ∀ l : List α, List.Pairwise R l := by
  intro l
  induction l with
  | nil => exact .nil
  | cons c l ih => exact .cons (fun b _ => h c b) ih

theorem blockOf_fst {c : Category} {text : List Char}
    {r : Category × List Char} (h : r ∈ blockOf c text) : r.1 = c := by
  unfold blockOf at h
  rw [List.mem_map] at h
  obtain ⟨jv, -, rfl⟩ := h
  rfl

theorem analyzeRaw_pairwise_cat (text : List Char) :
    List.Pairwise (fun a b => catIdx a.1 ≤ catIdx b.1) (analyzeRaw text) := by
  have hball : ∀ c, List.Pairwise
      (fun (a b : Category × List Char) => catIdx a.1 ≤ catIdx b.1)
      (blockOf c text) := by
    intro c
    unfold blockOf
    rw [List.pairwise_map]
    exact pairwise_of_all (fun a b => le_refl _) _
  have hcross : ∀ c1 c2, catIdx c1 ≤ catIdx c2 →
      ∀ a ∈ blockOf c1 text, ∀ b ∈ blockOf c2 text,
        catIdx a.1 ≤ catIdx b.1 := by
    intro c1 c2 h12 a ha b hb
    rw [blockOf_fst ha, blockOf_fst hb]
    exact h12
  unfold analyzeRaw
  refine List.pairwise_append.mpr ⟨?_, hball _, ?_⟩
  · refine List.pairwise_append.mpr ⟨?_, hball _, ?_⟩
    · refine List.pairwise_append.mpr ⟨?_, hball _, ?_⟩
      · exact List.pairwise_append.mpr
          ⟨hball _, hball _, hcross _ _ (by decide)⟩
      · intro a ha b hb
        rcases List.mem_append.mp ha with h | h
        · exact hcross _ _ (by decide) a h b hb
        · exact hcross _ _ (by decide) a h b hb
    · intro a ha b hb
      rcases List.mem_append.mp ha with h | h
      · rcases List.mem_append.mp h with h' | h'
        · exact hcross _ _ (by decide) a h' b hb
        · exact hcross _ _ (by decide) a h' b hb
      · exact hcross _ _ (by decide) a h b hb
  · intro a ha b hb
    rcases List.mem_append.mp ha with h | h
    · rcases List.mem_append.mp h with h' | h'
      · rcases List.mem_append.mp h' with h'' | h''
        · exact hcross _ _ (by decide) a h'' b hb
        · exact hcross _ _ (by decide) a h'' b hb
      · exact hcross _ _ (by decide) a h' b hb
    · exact hcross _ _ (by decide) a h b hb

theorem filter_block (c c' : Category) (text : List Char) :
    (blockOf c' text).filter (fun r => decide (r.1 = c)) =
      if c' = c then blockOf c' text else [] := by
  by_cases h : c' = c
  · rw [if_pos h]
    apply List.filter_eq_self.mpr
    intro r hr
    rw [blockOf_fst hr, h]
    simp
  · rw [if_neg h]
    apply List.filter_eq_nil_iff.mpr
    intro r hr
    rw [blockOf_fst hr]
    simp [h]

theorem analyzeRaw_filter (c : Category) (text : List Char) :
    (analyzeRaw text).filter (fun r => decide (r.1 = c)) = blockOf c text := by
  unfold analyzeRaw
  rw [List.filter_append, List.filter_append, List.filter_append,
    List.filter_append, filter_block, filter_block, filter_block,
    filter_block, filter_block]
  cases c <;> simp

theorem scanOf_pos_pairwise (c : Category) (text : List Char) :
    List.Pairwise (fun a b => a.1 < b.1) (scanOf c text) := by
  unfold scanOf scan
  have h := scanAux_pairwise (patternOf c) 1
    (fun s len v _ => le_max_left 1 len) (text.length + 1) text 0
  exact h.imp (fun hab => by omega)

/-- Claim C10: the analyzer's output order is deterministic: the result is
the first-occurrence deduplication of the raw row list; it is a subsequence
of it containing every raw row; rows appear grouped by category in fixed
pattern-table order; within a category the surviving rows form a subsequence
of that category's block, whose matches are in ascending position order; and
the output is ordered by first occurrence in the raw list (duplicates keep
their first position). -/
theorem c10_output_order (text : List Char) :
    analyze_legal_data text = dedupKeepFirst (analyzeRaw text) ∧
    (analyze_legal_data text).Sublist (analyzeRaw text) ∧
    (analyze_legal_data text).Nodup ∧
    (∀ r ∈ analyzeRaw text, r ∈ analyze_legal_data text) ∧
    List.Pairwise (fun a b => catIdx a.1 ≤ catIdx b.1)
      (analyze_legal_data text) ∧
    (∀ c, ((analyze_legal_data text).filter
        (fun r => decide (r.1 = c))).Sublist (blockOf c text)) ∧
    (∀ c, List.Pairwise (fun a b => a.1 < b.1) (scanOf c text)) ∧
    List.Pairwise
      (fun a b => firstPos a (analyzeRaw text) < firstPos b (analyzeRaw text))
      (analyze_legal_data text) := by
  refine ⟨rfl, dedupGo_sublist _ [], dedupGo_nodup _ [], ?_, ?_, ?_,
    fun c => scanOf_pos_pairwise c text,
    dedupGo_pairwise_firstPos (analyzeRaw text) []⟩
  · intro r hr
    exact mem_dedupGo_of_mem hr (by simp)
  · exact List.Pairwise.sublist (dedupGo_sublist _ [])
      (analyzeRaw_pairwise_cat text)
  · intro c
    rw [← analyzeRaw_filter c text]
    exact List.Sublist.filter _ (dedupGo_sublist _ [])

/-- Claim C10 (witness): the membership-preservation conjunct instantiated
on a concrete row. -/
theorem c10_witness :
    (Category.juzgado, "Juzgado".toList) ∈
      analyze_legal_data "Juzgado".toList :=
  (c10_output_order "Juzgado".toList).2.2.2.1 _ (by decide)

/-! ### Model validation on composite inputs

These evaluations reproduce, inside the embedding, the behaviour of the
reference patterns on inputs that exercise alternation order, greedy class
runs, backtracking of the separator run, and case-insensitive search. -/

theorem model_check_composite :
    analyze_legal_data
        "JUZGADO T. 45/B Despacho# Parte   Actora:  María Ñ. ".toList =
      [(Category.juzgado, "JUZGADO".toList),
       (Category.expediente, "T.".toList),
       (Category.secretaria, "Despacho".toList),
       (Category.demandante, "María Ñ.".toList)] := by
  decide

theorem model_check_backtracking :
    analyze_legal_data "Parte Demandada: X. Actor: y z. T.123".toList =
      [(Category.expediente, "T.".toList),
       (Category.demandante, "y z. T.".toList),
       (Category.demandado, "X. Actor".toList)] := by
  decide

theorem model_check_search_case :
    search_in_pdf [⟨1, "abAB".toList⟩] "ab".toList =
      [⟨1, "ab".toList, "abAB".toList⟩, ⟨1, "AB".toList, "abAB".toList⟩] := by
  decide

theorem model_check_no_match :
    analyze_legal_data "Toca ".toList = [] := by
  decide
